import Mathlib

/- Verification development for the scene-synchronization engine of
panel/pane/vtk/vtk.py: volume subsampling, scene serialization, color
mapper extraction, archive export and the identity registry. Machine
arithmetic that the source performs on Python ints and floats is
embedded over Nat and the exact rationals. -/

/- ## Volume subsampler (VTKVolume._subsample_array)

A 3-dimensional numpy array is embedded as its shape together with a
total value function; only indices below the shape are meaningful. -/

structure Arr3 where
  shape : Fin 3 → ℕ
  val : ℕ → ℕ → ℕ → ℚ

/- Source line 573 computes dim_ratio = cbrt(array.nbytes / 1e6 / max_data_size).
The cube root is irrational, so the theorems below are stated for every
rational value r of that ratio; r is passed where the source reads its
local dim_ratio. -/

/- max_shape entry: int(o_s / dim_ratio), truncation of a nonnegative
quotient, i.e. the floor (source line 574). -/
def max_shape (r : ℚ) (o : ℕ) : ℕ :=
  (⌊(o : ℚ) / r⌋).toNat

/- dowsnscale_factor entry (source line 575, keeping the source misspelling):
max(o_s, m_s) / m_s. -/
def dowsnscale_factor (r : ℚ) (o : ℕ) : ℚ :=
  ((max o (max_shape r o) : ℕ) : ℚ) / (max_shape r o : ℚ)

/- Modelled from the spec: the external resampling facility
(scipy.ndimage.zoom with zoom = 1 / d_f, order 0) is the injected
optional capability of the spec; its output length per axis follows its
documented contract round(size * zoom); the resampled values themselves
are supplied as a parameter of the embedding. -/
def zoom_shape (r : ℚ) (o : ℕ) : ℕ :=
  (round ((o : ℚ) * (1 / dowsnscale_factor r o))).toNat

/- int(np.ceil(d_f)) (source lines 582-584). -/
def stride_len (r : ℚ) (o : ℕ) : ℕ :=
  (⌈dowsnscale_factor r o⌉).toNat

/- Length of the slice a[::k] of an axis of length o: ceil(o / k). -/
def strided_shape (o k : ℕ) : ℕ :=
  (o + k - 1) / k

/- extent (source line 572): (o_s - 1) * s per axis. -/
def extent (spacing : Fin 3 → ℚ) (A : Arr3) : Fin 3 → ℚ :=
  fun i => ((A.shape i : ℚ) - 1) * spacing i

/- The reduced array of the downsampling branch (source lines 578-584):
scipy zoom when the import succeeds, else the naive strided view
array[::k0, ::k1, ::k2]. -/
def sub_array_of (scipy_available : Bool) (zoom_vals : ℕ → ℕ → ℕ → ℚ)
    (r : ℚ) (A : Arr3) : Arr3 :=
  if scipy_available then
    { shape := fun i => zoom_shape r (A.shape i), val := zoom_vals }
  else
    { shape := fun i => strided_shape (A.shape i) (stride_len r (A.shape i)),
      val := fun a b c =>
        A.val (a * stride_len r (A.shape 0)) (b * stride_len r (A.shape 1))
          (c * stride_len r (A.shape 2)) }

/- VTKVolume._subsample_array (source lines 569-589). The returned pair is
(sub_array, self._sub_spacing): the source stores the recomputed spacing
in the attribute _sub_spacing next to returning the array. -/
def _subsample_array (scipy_available : Bool) (zoom_vals : ℕ → ℕ → ℕ → ℚ)
    (r : ℚ) (spacing : Fin 3 → ℚ) (A : Arr3) : Arr3 × (Fin 3 → ℚ) :=
  if ∃ i : Fin 3, 1 < dowsnscale_factor r (A.shape i) then
    (sub_array_of scipy_available zoom_vals r A,
     fun i => extent spacing A i /
       (((sub_array_of scipy_available zoom_vals r A).shape i : ℚ) - 1))
  else
    (A, spacing)

/- ### Helper lemmas about the subsampler -/

lemma one_le_dowsnscale_factor {r : ℚ} {o : ℕ} (h : 0 < max_shape r o) :
    1 ≤ dowsnscale_factor r o := by
  unfold dowsnscale_factor
  rw [one_le_div (by exact_mod_cast h)]
  exact_mod_cast Nat.le_max_right o (max_shape r o)

lemma zoom_shape_le {r : ℚ} {o : ℕ} (h : 0 < max_shape r o) :
    zoom_shape r o ≤ o := by
  unfold zoom_shape
  have h1 : 1 ≤ dowsnscale_factor r o := one_le_dowsnscale_factor h
  have h0 : (0 : ℚ) < dowsnscale_factor r o := lt_of_lt_of_le one_pos h1
  have hz : (o : ℚ) * (1 / dowsnscale_factor r o) ≤ (o : ℚ) := by
    apply mul_le_of_le_one_right (by positivity)
    rw [div_le_one h0]
    exact h1
  have hr : round ((o : ℚ) * (1 / dowsnscale_factor r o)) ≤ round ((o : ℚ)) := by
    rw [round_eq, round_eq]
    exact Int.floor_mono (by linarith)
  rw [round_natCast] at hr
  omega

lemma stride_len_pos {r : ℚ} {o : ℕ} (h : 0 < max_shape r o) :
    0 < stride_len r o := by
  unfold stride_len
  have h1 : 1 ≤ dowsnscale_factor r o := one_le_dowsnscale_factor h
  have hc : (1 : ℤ) ≤ ⌈dowsnscale_factor r o⌉ :=
    Int.one_le_ceil_iff.mpr (lt_of_lt_of_le one_pos h1)
  omega

lemma strided_shape_le {o k : ℕ} (hk : 0 < k) : strided_shape o k ≤ o := by
  unfold strided_shape
  rcases Nat.eq_zero_or_pos o with h0 | h1
  · subst h0
    have h : (0 + k - 1) / k = 0 := Nat.div_eq_of_lt (by omega)
    omega
  · have hko : o + k - 1 ≤ k * o := by
      obtain ⟨a, rfl⟩ : ∃ a, o = a + 1 := ⟨o - 1, by omega⟩
      obtain ⟨b, rfl⟩ : ∃ b, k = b + 1 := ⟨k - 1, by omega⟩
      have hmul : (b + 1) * (a + 1) = b * a + b + a + 1 := by ring
      omega
    calc (o + k - 1) / k ≤ k * o / k := Nat.div_le_div_right hko
    _ = o := Nat.mul_div_cancel_left o hk

/- ### Concrete evaluations for the spec example: shape (512,512,512),
spacing (1,1,1), float64 data (1073.741824 MB), 64 MB budget, for which
the downscale ratio is cbrt(1073.741824/64) = 2.56 = 64/25 exactly. -/

lemma max_shape_512 : max_shape (64/25 : ℚ) 512 = 200 := by
  have h : (⌊((512 : ℕ) : ℚ) / (64/25)⌋ : ℤ) = 200 := by norm_num
  unfold max_shape
  rw [h]
  decide

lemma dowsnscale_factor_512 : dowsnscale_factor (64/25 : ℚ) 512 = 64/25 := by
  unfold dowsnscale_factor
  rw [max_shape_512]
  norm_num

lemma zoom_shape_512 : zoom_shape (64/25 : ℚ) 512 = 200 := by
  unfold zoom_shape
  rw [dowsnscale_factor_512]
  have h : round (((512 : ℕ) : ℚ) * (1 / (64/25))) = 200 := by
    push_cast
    norm_num [round_eq]
  rw [h]
  decide

/- ## Claim theorems for the subsampler -/

/-- C2: subsampling never upscales: whichever branch and resampling path is
taken, each axis of the returned array has at most as many samples as the
matching axis of the input. The hypothesis keeps every max_shape entry
positive, which is exactly the condition under which the source expression
max(o_s, m_s) / m_s is defined. -/
theorem subsample_never_upscales (scipy_available : Bool)
    (zoom_vals : ℕ → ℕ → ℕ → ℚ) (r : ℚ) (spacing : Fin 3 → ℚ) (A : Arr3)
    (hdef : ∀ i : Fin 3, 0 < max_shape r (A.shape i)) (i : Fin 3) :
    (_subsample_array scipy_available zoom_vals r spacing A).1.shape i ≤ A.shape i := by
  unfold _subsample_array
  by_cases hbr : ∃ j : Fin 3, 1 < dowsnscale_factor r (A.shape j)
  · rw [if_pos hbr]
    unfold sub_array_of
    cases scipy_available
    · simpa using strided_shape_le (stride_len_pos (hdef i))
    · simpa using zoom_shape_le (hdef i)
  · rw [if_neg hbr]

theorem subsample_never_upscales_witness :
    (_subsample_array true (fun _ _ _ => 0) (64/25 : ℚ) (fun _ => 1)
      ⟨fun _ => 512, fun _ _ _ => 0⟩).1.shape 0 ≤ 512 :=
  subsample_never_upscales true (fun _ _ _ => 0) (64/25 : ℚ) (fun _ => 1)
    ⟨fun _ => 512, fun _ _ _ => 0⟩
    (fun _ => by
      show 0 < max_shape (64/25 : ℚ) 512
      rw [max_shape_512]
      norm_num) 0

/-- C3: when no per-axis shrink factor exceeds 1 the subsampler returns the
input array unchanged and stores the original spacing as sub-spacing. -/
theorem subsample_identity_within_budget (scipy_available : Bool)
    (zoom_vals : ℕ → ℕ → ℕ → ℚ) (r : ℚ) (spacing : Fin 3 → ℚ) (A : Arr3)
    (hdef : ∀ i : Fin 3, 0 < max_shape r (A.shape i))
    (hfit : ∀ i : Fin 3, dowsnscale_factor r (A.shape i) ≤ 1) :
    _subsample_array scipy_available zoom_vals r spacing A = (A, spacing) := by
  unfold _subsample_array
  rw [if_neg]
  rintro ⟨i, hi⟩
  exact absurd hi (not_lt.mpr (hfit i))

theorem subsample_identity_within_budget_witness :
    _subsample_array true (fun _ _ _ => 0) (1/2 : ℚ) (fun _ => 1)
      ⟨fun _ => 4, fun _ _ _ => 0⟩
      = (⟨fun _ => 4, fun _ _ _ => 0⟩, fun _ => 1) :=
  subsample_identity_within_budget true (fun _ _ _ => 0) (1/2 : ℚ) (fun _ => 1)
    ⟨fun _ => 4, fun _ _ _ => 0⟩
    (fun _ => by
      show 0 < max_shape (1/2 : ℚ) 4
      have h : (⌊((4 : ℕ) : ℚ) / (1/2)⌋ : ℤ) = 8 := by norm_num
      unfold max_shape
      rw [h]
      decide)
    (fun _ => by
      show dowsnscale_factor (1/2 : ℚ) 4 ≤ 1
      have h : max_shape (1/2 : ℚ) 4 = 8 := by
        have h8 : (⌊((4 : ℕ) : ℚ) / (1/2)⌋ : ℤ) = 8 := by norm_num
        unfold max_shape
        rw [h8]
        decide
      unfold dowsnscale_factor
      rw [h]
      norm_num)

/-- C4: with the resampling facility unavailable and some axis shrink factor
above 1 the subsampler returns the naive strided subsampling of the input,
with per-axis index stride ceil(shrinkFactor); in the embedding the function
is total, mirroring that the source path raises no error. -/
theorem subsample_strided_fallback (zoom_vals : ℕ → ℕ → ℕ → ℚ) (r : ℚ)
    (spacing : Fin 3 → ℚ) (A : Arr3)
    (hdef : ∀ i : Fin 3, 0 < max_shape r (A.shape i))
    (hbr : ∃ i : Fin 3, 1 < dowsnscale_factor r (A.shape i)) :
    (∀ i : Fin 3, (_subsample_array false zoom_vals r spacing A).1.shape i
        = strided_shape (A.shape i) (stride_len r (A.shape i)))
    ∧ ∀ a b c : ℕ, (_subsample_array false zoom_vals r spacing A).1.val a b c
        = A.val (a * stride_len r (A.shape 0)) (b * stride_len r (A.shape 1))
            (c * stride_len r (A.shape 2)) := by
  unfold _subsample_array sub_array_of
  rw [if_pos hbr]
  exact ⟨fun i => by simp, fun a b c => by simp⟩

theorem subsample_strided_fallback_witness :
    ((_subsample_array false (fun _ _ _ => 0) (4 : ℚ) (fun _ => 1)
        ⟨fun _ => 8, fun a b c => ((a + b + c : ℕ) : ℚ)⟩).1.shape 0
      = strided_shape 8 (stride_len 4 8))
    ∧ (_subsample_array false (fun _ _ _ => 0) (4 : ℚ) (fun _ => 1)
        ⟨fun _ => 8, fun a b c => ((a + b + c : ℕ) : ℚ)⟩).1.val 1 2 3
      = ((1 * stride_len 4 8 + 2 * stride_len 4 8 + 3 * stride_len 4 8 : ℕ) : ℚ) := by
  have hdef : ∀ i : Fin 3, 0 < max_shape (4 : ℚ)
      ((⟨fun _ => 8, fun a b c => ((a + b + c : ℕ) : ℚ)⟩ : Arr3).shape i) := by
    intro i
    show 0 < max_shape (4 : ℚ) 8
    have h : (⌊((8 : ℕ) : ℚ) / 4⌋ : ℤ) = 2 := by norm_num
    unfold max_shape
    rw [h]
    decide
  have hbr : ∃ i : Fin 3, 1 < dowsnscale_factor (4 : ℚ)
      ((⟨fun _ => 8, fun a b c => ((a + b + c : ℕ) : ℚ)⟩ : Arr3).shape i) := by
    refine ⟨0, ?_⟩
    show 1 < dowsnscale_factor (4 : ℚ) 8
    have h : max_shape (4 : ℚ) 8 = 2 := by
      have h2 : (⌊((8 : ℕ) : ℚ) / 4⌋ : ℤ) = 2 := by norm_num
      unfold max_shape
      rw [h2]
      decide
    unfold dowsnscale_factor
    rw [h]
    norm_num
  have h := subsample_strided_fallback (fun _ _ _ => 0) (4 : ℚ) (fun _ => 1)
    ⟨fun _ => 8, fun a b c => ((a + b + c : ℕ) : ℚ)⟩ hdef hbr
  exact ⟨h.1 0, h.2 1 2 3⟩

/-- C1 (amended): on the downsampling branch the recomputed spacing satisfies
spacing_i * (newCount_i - 1) = (origCount_i - 1) * origSpacing_i: the
physical extent, measured between the first and last sample, is preserved
exactly; the source divides by (newCount - 1), not by newCount. -/
theorem subsample_extent_preserved (scipy_available : Bool)
    (zoom_vals : ℕ → ℕ → ℕ → ℚ) (r : ℚ) (spacing : Fin 3 → ℚ) (A : Arr3)
    (hbr : ∃ i : Fin 3, 1 < dowsnscale_factor r (A.shape i)) (i : Fin 3)
    (hout : 2 ≤ (_subsample_array scipy_available zoom_vals r spacing A).1.shape i) :
    (_subsample_array scipy_available zoom_vals r spacing A).2 i
        * (((_subsample_array scipy_available zoom_vals r spacing A).1.shape i : ℚ) - 1)
      = ((A.shape i : ℚ) - 1) * spacing i := by
  unfold _subsample_array at hout ⊢
  rw [if_pos hbr] at hout ⊢
  dsimp only at hout ⊢
  have h2 : (2 : ℚ) ≤ ((sub_array_of scipy_available zoom_vals r A).shape i : ℚ) := by
    exact_mod_cast hout
  have hne : ((sub_array_of scipy_available zoom_vals r A).shape i : ℚ) - 1 ≠ 0 :=
    sub_ne_zero.mpr (ne_of_gt (by linarith))
  rw [div_mul_cancel₀ _ hne]
  rfl

/- Evaluation of the subsampler at the spec example, used by the C1
counterexample and witness below. -/
lemma subsample_512_eval :
    (_subsample_array true (fun _ _ _ => 0) (64/25 : ℚ) (fun _ => 1)
        ⟨fun _ => 512, fun _ _ _ => 0⟩).1.shape 0 = 200
    ∧ (_subsample_array true (fun _ _ _ => 0) (64/25 : ℚ) (fun _ => 1)
        ⟨fun _ => 512, fun _ _ _ => 0⟩).2 0 = 511/199 := by
  have hbr : ∃ i : Fin 3, 1 < dowsnscale_factor (64/25 : ℚ)
      ((⟨fun _ => 512, fun _ _ _ => 0⟩ : Arr3).shape i) := by
    refine ⟨0, ?_⟩
    show 1 < dowsnscale_factor (64/25 : ℚ) 512
    rw [dowsnscale_factor_512]
    norm_num
  unfold _subsample_array sub_array_of
  rw [if_pos hbr]
  constructor
  · show zoom_shape (64/25 : ℚ) 512 = 200
    exact zoom_shape_512
  · show extent (fun _ => 1) ⟨fun _ => 512, fun _ _ _ => 0⟩ 0
        / ((zoom_shape (64/25 : ℚ) 512 : ℚ) - 1) = 511/199
    rw [zoom_shape_512]
    unfold extent
    norm_num

/-- C1 counterexample: for the spec example (shape (512,512,512), spacing
(1,1,1), 64 MB budget, ratio 2.56) the reduced spacing times the reduced
sample count is 511/199 * 200, which is neither 512 (the extent the claim
names) nor 511 (the physical extent the source computes): the claim as
stated, with sample count rather than sample count minus one, fails. -/
theorem subsample_extent_claim_counterexample :
    (_subsample_array true (fun _ _ _ => 0) (64/25 : ℚ) (fun _ => 1)
        ⟨fun _ => 512, fun _ _ _ => 0⟩).2 0
        * ((_subsample_array true (fun _ _ _ => 0) (64/25 : ℚ) (fun _ => 1)
        ⟨fun _ => 512, fun _ _ _ => 0⟩).1.shape 0 : ℚ) ≠ 512
    ∧ (_subsample_array true (fun _ _ _ => 0) (64/25 : ℚ) (fun _ => 1)
        ⟨fun _ => 512, fun _ _ _ => 0⟩).2 0
        * ((_subsample_array true (fun _ _ _ => 0) (64/25 : ℚ) (fun _ => 1)
        ⟨fun _ => 512, fun _ _ _ => 0⟩).1.shape 0 : ℚ) ≠ 511 := by
  rw [subsample_512_eval.1, subsample_512_eval.2]
  norm_num

theorem subsample_extent_preserved_witness :
    (_subsample_array true (fun _ _ _ => 0) (64/25 : ℚ) (fun _ => 1)
        ⟨fun _ => 512, fun _ _ _ => 0⟩).2 0
        * (((_subsample_array true (fun _ _ _ => 0) (64/25 : ℚ) (fun _ => 1)
        ⟨fun _ => 512, fun _ _ _ => 0⟩).1.shape 0 : ℚ) - 1) = 511 := by
  have h := subsample_extent_preserved true (fun _ _ _ => 0) (64/25 : ℚ)
    (fun _ => 1) ⟨fun _ => 512, fun _ _ _ => 0⟩
    (⟨0, by
      show 1 < dowsnscale_factor (64/25 : ℚ) 512
      rw [dowsnscale_factor_512]
      norm_num⟩) 0
    (by
      rw [subsample_512_eval.1]
      omega)
  rw [h]
  show (((512 : ℕ) : ℚ) - 1) * 1 = 511
  norm_num

/- ## Volume transfer record (VTKVolume._volume_from_array, lines 536-542)

numpy ravel is embedded through ravel3, the linearization of a 3d index
space with the first range outermost and the last range fastest. -/

def ravel3 (a b c : ℕ) (f : ℕ → ℕ → ℕ → ℚ) : List ℚ :=
  (List.range a).flatMap fun x =>
    (List.range b).flatMap fun y =>
      (List.range c).map fun z => f x y z

/- ravel(order=C): the last axis varies fastest. -/
def ravelC (A : Arr3) : List ℚ :=
  ravel3 (A.shape 0) (A.shape 1) (A.shape 2) A.val

/- ravel(order=F): the first axis varies fastest. -/
def ravelF (A : Arr3) : List ℚ :=
  ravel3 (A.shape 2) (A.shape 1) (A.shape 0) (fun k j i => A.val i j k)

/- Reversal of a 3-tuple, embedding the python slice [::-1]. -/
def rev3 {γ : Type} (f : Fin 3 → γ) : Fin 3 → γ :=
  fun i => f ⟨2 - i.val, by omega⟩

/- numpy min() and max() of a nonempty array, as folds over the elements. -/
def list_min : List ℚ → Option ℚ
  | [] => none
  | a :: as => some (as.foldl min a)

def list_max : List ℚ → Option ℚ
  | [] => none
  | a :: as => some (as.foldl max a)

/- The dict returned by _volume_from_array. The buffer is kept as the list
of raveled values; the base64 transport encoding of its bytes is outside
the embedding. -/
structure VolumeRecord where
  buffer : List ℚ
  dims : Fin 3 → ℕ
  spacing : Fin 3 → ℚ
  origin : Fin 3 → ℚ
  data_range : Option ℚ × Option ℚ
  dtype : String

/- VTKVolume._volume_from_array: F-contiguous arrays are raveled in F order
with dims and spacing kept in array order; otherwise the array is raveled
in C order and dims and spacing are reversed. fContiguous stands for
sub_array.flags[F_CONTIGUOUS], dtypeName for sub_array.dtype.name. -/
def _volume_from_array (fContiguous : Bool) (dtypeName : String)
    (sub_spacing origin : Fin 3 → ℚ) (sub_array : Arr3) : VolumeRecord :=
  { buffer := if fContiguous then ravelF sub_array else ravelC sub_array
    dims := if fContiguous then sub_array.shape else rev3 sub_array.shape
    spacing := if fContiguous then sub_spacing else rev3 sub_spacing
    origin := origin
    data_range := (list_min (ravelC sub_array), list_max (ravelC sub_array))
    dtype := dtypeName }

/- ### Indexing lemmas for ravel3 -/

lemma length_flatMap_range {f : ℕ → List ℚ} {m : ℕ} :
    ∀ {a : ℕ}, (∀ x < a, (f x).length = m) →
      ((List.range a).flatMap f).length = a * m := by
  intro a
  induction a with
  | zero => simp
  | succ n ih =>
    intro h
    rw [List.range_succ, List.flatMap_append, List.length_append,
      ih (fun x hx => h x (by omega))]
    simp [h n (by omega)]
    ring

lemma getElem?_flatMap_range {f : ℕ → List ℚ} {m a x p : ℕ}
    (h : ∀ x < a, (f x).length = m) (hx : x < a) (hp : p < m) :
    ((List.range a).flatMap f)[x * m + p]? = (f x)[p]? := by
  induction a with
  | zero => omega
  | succ n ih =>
    rw [List.range_succ, List.flatMap_append]
    have hlen : ((List.range n).flatMap f).length = n * m :=
      length_flatMap_range (fun y hy => h y (by omega))
    rcases Nat.lt_or_ge x n with hxn | hxn
    · rw [List.getElem?_append_left]
      · exact ih (fun y hy => h y (by omega)) hxn
      · rw [hlen]
        calc x * m + p < x * m + m := by omega
        _ = (x + 1) * m := by ring
        _ ≤ n * m := Nat.mul_le_mul_right m (by omega)
    · have hxe : x = n := by omega
      subst hxe
      rw [List.getElem?_append_right (by rw [hlen]; omega), hlen]
      have he : x * m + p - x * m = p := by omega
      rw [he]
      simp

lemma ravel3_getElem {a b c x y z : ℕ} {f : ℕ → ℕ → ℕ → ℚ}
    (hx : x < a) (hy : y < b) (hz : z < c) :
    (ravel3 a b c f)[x * (b * c) + (y * c + z)]? = some (f x y z) := by
  unfold ravel3
  have hinner : ∀ u < a,
      ((List.range b).flatMap fun y =>
        (List.range c).map fun z => f u y z).length = b * c := by
    intro u _
    exact length_flatMap_range (fun v _ => by simp)
  rw [getElem?_flatMap_range hinner hx (by
    calc y * c + z < y * c + c := by omega
    _ = (y + 1) * c := by ring
    _ ≤ b * c := Nat.mul_le_mul_right c (by omega))]
  rw [getElem?_flatMap_range (fun v _ => by simp) hy hz]
  simp [List.getElem?_range hz]

lemma ravelF_getElem {A : Arr3} {i j k : ℕ}
    (hi : i < A.shape 0) (hj : j < A.shape 1) (hk : k < A.shape 2) :
    (ravelF A)[i + A.shape 0 * j + A.shape 0 * (A.shape 1 * k)]? = some (A.val i j k) := by
  have he : i + A.shape 0 * j + A.shape 0 * (A.shape 1 * k)
      = k * (A.shape 1 * A.shape 0) + (j * A.shape 0 + i) := by ring
  rw [ravelF, he]
  exact ravel3_getElem hk hj hi

lemma ravelC_getElem {A : Arr3} {i j k : ℕ}
    (hi : i < A.shape 0) (hj : j < A.shape 1) (hk : k < A.shape 2) :
    (ravelC A)[k + A.shape 2 * j + A.shape 2 * (A.shape 1 * i)]? = some (A.val i j k) := by
  have he : k + A.shape 2 * j + A.shape 2 * (A.shape 1 * i)
      = i * (A.shape 1 * A.shape 2) + (j * A.shape 2 + k) := by ring
  rw [ravelC, he]
  exact ravel3_getElem hi hj hk

/- ### min and max of a fold -/

lemma foldl_min_le_seed (a : ℚ) (as : List ℚ) : as.foldl min a ≤ a := by
  induction as generalizing a with
  | nil => simp
  | cons b as ih =>
    calc (b :: as).foldl min a = as.foldl min (min a b) := rfl
    _ ≤ min a b := ih (min a b)
    _ ≤ a := min_le_left a b

lemma foldl_min_le_mem {x : ℚ} {as : List ℚ} (a : ℚ) (hx : x ∈ as) :
    as.foldl min a ≤ x := by
  induction as generalizing a with
  | nil => simp at hx
  | cons b as ih =>
    rcases List.mem_cons.mp hx with h | h
    · subst h
      calc (x :: as).foldl min a = as.foldl min (min a x) := rfl
      _ ≤ min a x := foldl_min_le_seed (min a x) as
      _ ≤ x := min_le_right a x
    · exact ih (min a b) h

lemma foldl_min_mem (a : ℚ) (as : List ℚ) :
    as.foldl min a = a ∨ as.foldl min a ∈ as := by
  induction as generalizing a with
  | nil => exact Or.inl rfl
  | cons b as ih =>
    rcases ih (min a b) with h | h
    · rcases min_choice a b with hm | hm
      · exact Or.inl (by rw [List.foldl_cons, h, hm])
      · exact Or.inr (by rw [List.foldl_cons, h, hm]; exact List.mem_cons_self b as)
    · exact Or.inr (List.mem_cons_of_mem b h)

lemma le_foldl_max_seed (a : ℚ) (as : List ℚ) : a ≤ as.foldl max a := by
  induction as generalizing a with
  | nil => simp
  | cons b as ih =>
    calc a ≤ max a b := le_max_left a b
    _ ≤ as.foldl max (max a b) := ih (max a b)
    _ = (b :: as).foldl max a := rfl

lemma le_foldl_max_mem {x : ℚ} {as : List ℚ} (a : ℚ) (hx : x ∈ as) :
    x ≤ as.foldl max a := by
  induction as generalizing a with
  | nil => simp at hx
  | cons b as ih =>
    rcases List.mem_cons.mp hx with h | h
    · subst h
      calc x ≤ max a x := le_max_right a x
      _ ≤ as.foldl max (max a x) := le_foldl_max_seed (max a x) as
      _ = (x :: as).foldl max a := rfl
    · exact ih (max a b) h

lemma foldl_max_mem (a : ℚ) (as : List ℚ) :
    as.foldl max a = a ∨ as.foldl max a ∈ as := by
  induction as generalizing a with
  | nil => exact Or.inl rfl
  | cons b as ih =>
    rcases ih (max a b) with h | h
    · rcases max_choice a b with hm | hm
      · exact Or.inl (by rw [List.foldl_cons, h, hm])
      · exact Or.inr (by rw [List.foldl_cons, h, hm]; exact List.mem_cons_self b as)
    · exact Or.inr (List.mem_cons_of_mem b h)

lemma list_min_spec {l : List ℚ} (hne : l ≠ []) :
    ∃ m, list_min l = some m ∧ m ∈ l ∧ ∀ x ∈ l, m ≤ x := by
  cases l with
  | nil => exact absurd rfl hne
  | cons a as =>
    refine ⟨as.foldl min a, rfl, ?_, ?_⟩
    · rcases foldl_min_mem a as with h | h
      · rw [h]; exact List.mem_cons_self a as
      · exact List.mem_cons_of_mem a h
    · intro x hx
      rcases List.mem_cons.mp hx with h | h
      · subst h; exact foldl_min_le_seed x as
      · exact foldl_min_le_mem a h

lemma list_max_spec {l : List ℚ} (hne : l ≠ []) :
    ∃ m, list_max l = some m ∧ m ∈ l ∧ ∀ x ∈ l, x ≤ m := by
  cases l with
  | nil => exact absurd rfl hne
  | cons a as =>
    refine ⟨as.foldl max a, rfl, ?_, ?_⟩
    · rcases foldl_max_mem a as with h | h
      · rw [h]; exact List.mem_cons_self a as
      · exact List.mem_cons_of_mem a h
    · intro x hx
      rcases List.mem_cons.mp hx with h | h
      · subst h; exact le_foldl_max_seed x as
      · exact le_foldl_max_mem a h

lemma ravelC_length (A : Arr3) :
    (ravelC A).length = A.shape 0 * (A.shape 1 * A.shape 2) := by
  unfold ravelC ravel3
  apply length_flatMap_range
  intro x _
  apply length_flatMap_range
  intro y _
  simp

lemma ravelC_ne_nil {A : Arr3} (h : ∀ i : Fin 3, 0 < A.shape i) :
    ravelC A ≠ [] := by
  have hl : 0 < (ravelC A).length := by
    rw [ravelC_length]
    have h0 := h 0
    have h1 := h 1
    have h2 := h 2
    positivity
  exact List.length_pos.mp hl

/-- C10: the volume record ravels the array in F order with dims and spacing
in array order when the array is F-contiguous, and in C order with dims and
spacing reversed otherwise; data_range is the actual minimum and maximum of
the array values and dtype is the dtype name of the array. -/
theorem volume_from_array_spec (fContiguous : Bool) (dtypeName : String)
    (sub_spacing origin : Fin 3 → ℚ) (A : Arr3) :
    ((_volume_from_array fContiguous dtypeName sub_spacing origin A).dtype = dtypeName)
    ∧ ((_volume_from_array fContiguous dtypeName sub_spacing origin A).origin = origin)
    ∧ (fContiguous = true →
        (_volume_from_array fContiguous dtypeName sub_spacing origin A).dims = A.shape
        ∧ (_volume_from_array fContiguous dtypeName sub_spacing origin A).spacing = sub_spacing
        ∧ ∀ i j k : ℕ, i < A.shape 0 → j < A.shape 1 → k < A.shape 2 →
            (_volume_from_array fContiguous dtypeName sub_spacing origin A).buffer[
              i + A.shape 0 * j + A.shape 0 * (A.shape 1 * k)]? = some (A.val i j k))
    ∧ (fContiguous = false →
        (_volume_from_array fContiguous dtypeName sub_spacing origin A).dims = rev3 A.shape
        ∧ (_volume_from_array fContiguous dtypeName sub_spacing origin A).spacing = rev3 sub_spacing
        ∧ ∀ i j k : ℕ, i < A.shape 0 → j < A.shape 1 → k < A.shape 2 →
            (_volume_from_array fContiguous dtypeName sub_spacing origin A).buffer[
              k + A.shape 2 * j + A.shape 2 * (A.shape 1 * i)]? = some (A.val i j k))
    ∧ ((∀ i : Fin 3, 0 < A.shape i) →
        ∃ m M, (_volume_from_array fContiguous dtypeName sub_spacing origin A).data_range
            = (some m, some M)
          ∧ m ∈ ravelC A ∧ M ∈ ravelC A
          ∧ ∀ x ∈ ravelC A, m ≤ x ∧ x ≤ M) := by
  refine ⟨rfl, rfl, ?_, ?_, ?_⟩
  · intro hf
    subst hf
    refine ⟨rfl, rfl, ?_⟩
    intro i j k hi hj hk
    show (ravelF A)[i + A.shape 0 * j + A.shape 0 * (A.shape 1 * k)]? = some (A.val i j k)
    exact ravelF_getElem hi hj hk
  · intro hf
    subst hf
    refine ⟨rfl, rfl, ?_⟩
    intro i j k hi hj hk
    show (ravelC A)[k + A.shape 2 * j + A.shape 2 * (A.shape 1 * i)]? = some (A.val i j k)
    exact ravelC_getElem hi hj hk
  · intro hpos
    obtain ⟨m, hm, hmmem, hmle⟩ := list_min_spec (ravelC_ne_nil hpos)
    obtain ⟨M, hM, hMmem, hMge⟩ := list_max_spec (ravelC_ne_nil hpos)
    refine ⟨m, M, ?_, hmmem, hMmem, fun x hx => ⟨hmle x hx, hMge x hx⟩⟩
    show (list_min (ravelC A), list_max (ravelC A)) = (some m, some M)
    rw [hm, hM]

theorem volume_from_array_spec_witness :
    ((_volume_from_array false "uint8" (fun _ => 1) (fun _ => 0)
        ⟨fun i => if i.val = 2 then 2 else 1, fun _ _ k => (k : ℚ)⟩).dims
      = rev3 (⟨fun i => if i.val = 2 then 2 else 1, fun _ _ k => (k : ℚ)⟩ : Arr3).shape)
    ∧ (_volume_from_array false "uint8" (fun _ => 1) (fun _ => 0)
        ⟨fun i => if i.val = 2 then 2 else 1, fun _ _ k => (k : ℚ)⟩).buffer[
        1 + (⟨fun i => if i.val = 2 then 2 else 1, fun _ _ k => (k : ℚ)⟩ : Arr3).shape 2 * 0
          + (⟨fun i => if i.val = 2 then 2 else 1, fun _ _ k => (k : ℚ)⟩ : Arr3).shape 2
            * ((⟨fun i => if i.val = 2 then 2 else 1, fun _ _ k => (k : ℚ)⟩ : Arr3).shape 1 * 0)]?
      = some ((1 : ℕ) : ℚ) := by
  have h := volume_from_array_spec false "uint8" (fun _ => 1) (fun _ => 0)
    ⟨fun i => if i.val = 2 then 2 else 1, fun _ _ k => (k : ℚ)⟩
  have hc := h.2.2.2.1 rfl
  exact ⟨hc.1, hc.2.2 0 0 1 (by decide) (by decide) (by decide)⟩

/- ## Scene serialization (VTK._serialize_ren_win, lines 257-269)

Property-tree values are a JSON-like value type. -/

inductive JVal where
  | null
  | bool (b : Bool)
  | num (q : ℚ)
  | str (s : String)
  | arr (xs : List JVal)
  | obj (fields : List (String × JVal))

/- Python dict read: first matching key. -/
def dictGet {β : Type} : List (String × β) → String → Option β
  | [], _ => none
  | (k, v) :: rest, key => if k = key then some v else dictGet rest key

/- Python dict assignment d[key] = v: overwrite in place if the key exists,
else append in insertion order. -/
def dictSet {β : Type} : List (String × β) → String → β → List (String × β)
  | [], key, v => [(key, v)]
  | (k, w) :: rest, key, v =>
      if k = key then (key, v) :: rest else (k, w) :: dictSet rest key v

lemma dictGet_dictSet {β : Type} (d : List (String × β)) (key : String) (v : β) :
    dictGet (dictSet d key v) key = some v := by
  induction d with
  | nil => simp [dictSet, dictGet]
  | cons kv rest ih =>
    by_cases h : kv.1 = key
    · simp [dictSet, h, dictGet]
    · simpa [dictSet, h, dictGet] using ih

/- Modelled from the spec: serializeInstance of the synchronizable
serializer module (repository code not under src) walks the render window
and emits a nested dict that contains a property dictionary; its output is
abstracted as the properties dict plus the remaining entries. -/
structure Scene where
  properties : List (String × JVal)
  rest : List (String × JVal)

/- VTK._serialize_ren_win: takes the serializeInstance output and the data
array cache of the synchronization context (Modelled from the spec: a dict
from content hash key to raw payload bytes, read back through
getCachedDataArray with on-demand compression, abstracted as the compress
parameter), sets properties[numberOfLayers] = 2 and returns the arrays
whose keys are not excluded. -/
def _serialize_ren_win (serialized : Scene)
    (dataArrayCache : List (String × List ℕ)) (compress : List ℕ → List ℕ)
    (exclude_arrays : List String) : Scene × List (String × List ℕ) :=
  ({ serialized with
      properties := dictSet serialized.properties "numberOfLayers" (JVal.num 2) },
   (dataArrayCache.filter (fun kv => !(exclude_arrays.contains kv.1))).map
     (fun kv => (kv.1, compress kv.2)))

/-- C5: whatever the serializer emitted for the render window and however
many view-props it holds, the returned scene reports numberOfLayers = 2. -/
theorem serialize_ren_win_two_layers (serialized : Scene)
    (dataArrayCache : List (String × List ℕ)) (compress : List ℕ → List ℕ)
    (exclude_arrays : List String) :
    dictGet ((_serialize_ren_win serialized dataArrayCache compress
        exclude_arrays).1.properties) "numberOfLayers" = some (JVal.num 2) :=
  dictGet_dictSet serialized.properties "numberOfLayers" (JVal.num 2)

lemma filter_map_fst {β γ : Type} (l : List (String × β)) (p : String → Bool)
    (g : β → γ) :
    ((l.filter (fun kv => p kv.1)).map (fun kv => (kv.1, g kv.2))).map Prod.fst
      = (l.map Prod.fst).filter p := by
  induction l with
  | nil => simp
  | cons kv t ih =>
    by_cases hp : p kv.1 <;> simp [List.filter_cons, hp, ih]

/-- C6: the returned array payload map has exactly the cache keys outside the
exclusion set; in particular, excluding every previously processed key of an
unchanged cache leaves the payload map empty. -/
theorem serialize_ren_win_incremental (serialized : Scene)
    (dataArrayCache : List (String × List ℕ)) (compress : List ℕ → List ℕ)
    (exclude_arrays : List String) :
    ((_serialize_ren_win serialized dataArrayCache compress exclude_arrays).2.map Prod.fst
      = (dataArrayCache.map Prod.fst).filter (fun k => !(exclude_arrays.contains k)))
    ∧ ((∀ k ∈ dataArrayCache.map Prod.fst, k ∈ exclude_arrays) →
        (_serialize_ren_win serialized dataArrayCache compress exclude_arrays).2 = []) := by
  have h1 : (_serialize_ren_win serialized dataArrayCache compress exclude_arrays).2.map Prod.fst
      = (dataArrayCache.map Prod.fst).filter (fun k => !(exclude_arrays.contains k)) :=
    filter_map_fst dataArrayCache (fun k => !(exclude_arrays.contains k)) compress
  refine ⟨h1, fun hall => ?_⟩
  have h2 : (dataArrayCache.map Prod.fst).filter (fun k => !(exclude_arrays.contains k)) = [] := by
    rw [List.filter_eq_nil_iff]
    intro a ha
    simp [hall a ha]
  have h3 := h1
  rw [h2] at h3
  exact List.map_eq_nil_iff.mp h3

theorem serialize_ren_win_incremental_witness :
    (_serialize_ren_win ⟨[], []⟩ [("a", [0]), ("b", [1, 2])] id ["a", "b"]).2 = [] :=
  (serialize_ren_win_incremental ⟨[], []⟩ [("a", [0]), ("b", [1, 2])] id
    ["a", "b"]).2 (by intro k hk; simpa using hk)

/- ## Archive export (VTK.export_scene, lines 324-337)

Modelled from the spec: the zip container (zipfile) returns an entry
content byte-identical on read, deflate being lossless, and json.dumps
followed by json.loads reproduces a structurally equal tree; the text
entry is therefore embedded as holding the property tree itself and a
binary entry as holding its raw bytes. -/

inductive ArchiveData where
  | text (tree : Scene)
  | bin (bytes : List ℕ)

inductive ZipMethod where
  | stored
  | deflated

structure ZipEntry where
  path : String
  payload : ArchiveData
  method : ZipMethod

/- VTK.export_scene: writes index.json (json.dumps of the scene, default
stored entry) followed by one ZIP_DEFLATED entry data/<key> per cache key
holding getCachedDataArray(key, binary=True, compression=False), the raw
uncompressed bytes. -/
def export_scene (scene : Scene) (dataArrayCache : List (String × List ℕ)) :
    List ZipEntry :=
  { path := "index.json", payload := ArchiveData.text scene,
    method := ZipMethod.stored }
    :: dataArrayCache.map (fun kv =>
        { path := "data/" ++ kv.1, payload := ArchiveData.bin kv.2,
          method := ZipMethod.deflated })

/- Reading an entry back from the reopened archive. -/
def zipRead (entries : List ZipEntry) (p : String) : Option ArchiveData :=
  (entries.find? (fun e => e.path == p)).map ZipEntry.payload

lemma data_path_inj {a b : String} (h : "data/" ++ a = "data/" ++ b) : a = b := by
  have hd := congrArg String.data h
  rw [String.data_append, String.data_append] at hd
  exact String.ext (List.append_cancel_left hd)

lemma index_ne_data (k : String) : ("index.json" : String) ≠ "data/" ++ k := by
  intro h
  have hd := congrArg String.data h
  rw [String.data_append] at hd
  simp at hd

lemma find_data_entry {dataArrayCache : List (String × List ℕ)} {k : String}
    {d : List ℕ} (hnd : (dataArrayCache.map Prod.fst).Nodup)
    (hmem : (k, d) ∈ dataArrayCache) :
    (dataArrayCache.map (fun kv =>
        ({ path := "data/" ++ kv.1, payload := ArchiveData.bin kv.2,
           method := ZipMethod.deflated } : ZipEntry))).find?
      (fun e => e.path == "data/" ++ k)
      = some ⟨"data/" ++ k, ArchiveData.bin d, ZipMethod.deflated⟩ := by
  induction dataArrayCache with
  | nil => simp at hmem
  | cons kv t ih =>
    rw [List.map_cons] at hnd ⊢
    rw [List.nodup_cons] at hnd
    by_cases hk : kv.1 = k
    · have hd : kv.2 = d := by
        rcases List.mem_cons.mp hmem with h | h
        · rw [← h]
        · exfalso
          apply hnd.1
          rw [hk]
          exact List.mem_map.mpr ⟨(k, d), h, rfl⟩
      rw [List.find?_cons_of_pos _ (by simp [hk])]
      rw [hk, hd]
    · rw [List.find?_cons_of_neg _ (by
        intro h
        exact hk (data_path_inj (beq_iff_eq.mp h)))]
      have hmem2 : (k, d) ∈ t := by
        rcases List.mem_cons.mp hmem with h | h
        · exfalso
          apply hk
          rw [← h]
        · exact h
      exact ih hnd.2 hmem2

/-- C7: the exported archive contains the property tree at index.json and
one deflate-compressed entry data/<key> per cache key holding that key's raw
bytes; reading the reopened archive returns byte-identical payloads and the
structurally equal tree. The cache keys are distinct, being content hashes
of a python dict. -/
theorem export_scene_roundtrip (scene : Scene)
    (dataArrayCache : List (String × List ℕ))
    (hnd : (dataArrayCache.map Prod.fst).Nodup) :
    (zipRead (export_scene scene dataArrayCache) "index.json"
        = some (ArchiveData.text scene))
    ∧ (∀ k d, (k, d) ∈ dataArrayCache →
        zipRead (export_scene scene dataArrayCache) ("data/" ++ k)
            = some (ArchiveData.bin d)
        ∧ ∃ e ∈ export_scene scene dataArrayCache,
            e.path = "data/" ++ k ∧ e.method = ZipMethod.deflated)
    ∧ (export_scene scene dataArrayCache).length = dataArrayCache.length + 1 := by
  refine ⟨?_, ?_, by simp [export_scene]⟩
  · unfold zipRead export_scene
    rw [List.find?_cons_of_pos _ (by simp)]
    rfl
  · intro k d hmem
    constructor
    · unfold zipRead export_scene
      rw [List.find?_cons_of_neg _ (by
        intro h
        exact index_ne_data k (beq_iff_eq.mp h))]
      rw [find_data_entry hnd hmem]
      rfl
    · refine ⟨⟨"data/" ++ k, ArchiveData.bin d, ZipMethod.deflated⟩, ?_, rfl, rfl⟩
      unfold export_scene
      exact List.mem_cons_of_mem _ (List.mem_map.mpr ⟨(k, d), hmem, rfl⟩)

theorem export_scene_roundtrip_witness :
    zipRead (export_scene ⟨[], []⟩ [("k1", [0, 1]), ("k2", [2])]) ("data/" ++ "k1")
      = some (ArchiveData.bin [0, 1]) :=
  ((export_scene_roundtrip ⟨[], []⟩ [("k1", [0, 1]), ("k2", [2])]
    (by simp)).2.1 "k1" [0, 1] (by simp)).1

/- ## Identity registry (context.getReferenceId)

Modelled from the spec: the synchronization context of the serializer
module (repository code not under src) keeps a mapping from object
instance to its assigned identifier and mints fresh identifiers from a
registry-wide monotonic counter; getOrAssignId returns the recorded
identifier when the instance was seen before, else records and returns a
fresh one. Object instances are drawn from any type with decidable
identity. -/

structure Registry (α : Type) where
  assigned : List (α × ℕ)
  nextId : ℕ

def getOrAssignId {α : Type} [DecidableEq α] (reg : Registry α) (o : α) :
    ℕ × Registry α :=
  match reg.assigned.find? (fun p => decide (p.1 = o)) with
  | some p => (p.2, reg)
  | none => (reg.nextId, ⟨(o, reg.nextId) :: reg.assigned, reg.nextId + 1⟩)

lemma getOrAssignId_found {α : Type} [DecidableEq α] {reg : Registry α}
    {o : α} {p : α × ℕ}
    (hf : reg.assigned.find? (fun q => decide (q.1 = o)) = some p) :
    getOrAssignId reg o = (p.2, reg) := by
  unfold getOrAssignId
  rw [hf]

lemma getOrAssignId_new {α : Type} [DecidableEq α] {reg : Registry α} {o : α}
    (hf : reg.assigned.find? (fun q => decide (q.1 = o)) = none) :
    getOrAssignId reg o
      = (reg.nextId, ⟨(o, reg.nextId) :: reg.assigned, reg.nextId + 1⟩) := by
  unfold getOrAssignId
  rw [hf]

/- Well-formedness: every recorded identifier is below the counter and no
identifier is recorded twice. It holds for the empty registry and every
getOrAssignId call preserves it, so it holds throughout a registry
lifetime. -/
def Registry.WF {α : Type} (reg : Registry α) : Prop :=
  (∀ p ∈ reg.assigned, p.2 < reg.nextId)
  ∧ (reg.assigned.map Prod.snd).Nodup

lemma registry_wf_empty {α : Type} : (⟨[], 0⟩ : Registry α).WF := by
  constructor
  · intro p hp
    simp at hp
  · simp

lemma registry_wf_preserved {α : Type} [DecidableEq α] {reg : Registry α}
    (h : reg.WF) (o : α) : (getOrAssignId reg o).2.WF := by
  cases hf : reg.assigned.find? (fun p => decide (p.1 = o)) with
  | some p =>
    rw [getOrAssignId_found hf]
    exact h
  | none =>
    rw [getOrAssignId_new hf]
    constructor
    · intro q hq
      dsimp only at hq ⊢
      rcases List.mem_cons.mp hq with hh | hh
      · rw [hh]
        omega
      · exact lt_trans (h.1 q hh) (by omega)
    · dsimp only
      rw [List.map_cons, List.nodup_cons]
      refine ⟨?_, h.2⟩
      intro hmem
      rcases List.mem_map.mp hmem with ⟨q, hq, hq2⟩
      exact absurd (h.1 q hq) (by omega)

lemma find?_mem_of_eq {α : Type} [DecidableEq α] {l : List (α × ℕ)} {o : α}
    {p : α × ℕ} (h : l.find? (fun q => decide (q.1 = o)) = some p) :
    p ∈ l ∧ p.1 = o :=
  ⟨List.mem_of_find?_eq_some h, by
    have := List.find?_some h
    simpa using this⟩

lemma nodup_snd_inj {α : Type} {l : List (α × ℕ)} (hnd : (l.map Prod.snd).Nodup)
    {p q : α × ℕ} (hp : p ∈ l) (hq : q ∈ l) (hpq : p.2 = q.2) : p = q :=
  List.inj_on_of_nodup_map hnd hp hq hpq

/-- C9: within one registry lifetime, asking twice for the identifier of the
same object yields the same identifier, and a second call for a distinct
object never yields the identifier of the first. -/
theorem getOrAssignId_stable_unique {α : Type} [DecidableEq α]
    (reg : Registry α) (hwf : reg.WF) (o o' : α) :
    ((getOrAssignId ((getOrAssignId reg o).2) o).1 = (getOrAssignId reg o).1)
    ∧ (o ≠ o' →
        (getOrAssignId ((getOrAssignId reg o).2) o').1 ≠ (getOrAssignId reg o).1) := by
  constructor
  · cases hf : reg.assigned.find? (fun p => decide (p.1 = o)) with
    | some p =>
      rw [getOrAssignId_found hf]
      dsimp only
      rw [getOrAssignId_found hf]
    | none =>
      rw [getOrAssignId_new hf]
      dsimp only
      have hf2 : ((o, reg.nextId) :: reg.assigned).find? (fun p => decide (p.1 = o))
          = some (o, reg.nextId) := by
        rw [List.find?_cons_of_pos _ (by simp)]
      rw [getOrAssignId_found hf2]
  · intro hne
    cases hf : reg.assigned.find? (fun p => decide (p.1 = o)) with
    | some p =>
      rw [getOrAssignId_found hf]
      dsimp only
      cases hf2 : reg.assigned.find? (fun q => decide (q.1 = o')) with
      | some q =>
        rw [getOrAssignId_found hf2]
        dsimp only
        intro heq
        obtain ⟨hpmem, hpo⟩ := find?_mem_of_eq hf
        obtain ⟨hqmem, hqo⟩ := find?_mem_of_eq hf2
        have hqp : q = p := nodup_snd_inj hwf.2 hqmem hpmem heq
        apply hne
        rw [← hpo, ← hqo, hqp]
      | none =>
        rw [getOrAssignId_new hf2]
        obtain ⟨hpmem, _⟩ := find?_mem_of_eq hf
        have hlt := hwf.1 p hpmem
        dsimp only
        omega
    | none =>
      rw [getOrAssignId_new hf]
      dsimp only
      have hcons : ((o, reg.nextId) :: reg.assigned).find? (fun q => decide (q.1 = o'))
          = reg.assigned.find? (fun q => decide (q.1 = o')) := by
        rw [List.find?_cons_of_neg _ (by simpa using fun h => hne h)]
      cases hf2 : reg.assigned.find? (fun q => decide (q.1 = o')) with
      | some q =>
        rw [getOrAssignId_found (hcons.trans hf2)]
        obtain ⟨hqmem, _⟩ := find?_mem_of_eq hf2
        have hlt := hwf.1 q hqmem
        dsimp only
        omega
      | none =>
        rw [getOrAssignId_new (hcons.trans hf2)]
        dsimp only
        omega

theorem getOrAssignId_stable_unique_witness :
    ((getOrAssignId ((getOrAssignId (⟨[], 0⟩ : Registry ℕ) 7).2) 7).1
        = (getOrAssignId (⟨[], 0⟩ : Registry ℕ) 7).1)
    ∧ ((getOrAssignId ((getOrAssignId (⟨[], 0⟩ : Registry ℕ) 7).2) 8).1
        ≠ (getOrAssignId (⟨[], 0⟩ : Registry ℕ) 7).1) := by
  have h := getOrAssignId_stable_unique (⟨[], 0⟩ : Registry ℕ) registry_wf_empty 7 8
  exact ⟨h.1, h.2 (by decide)⟩

/- ## Color mappers (SyncHelpers.get_color_mappers and _rgb2hex, lines 112-136)

Python {0:02x} formatting: minimal lowercase hex digits, zero-padded on the
left to width two. -/

def hexDigitChar (d : ℕ) : Char :=
  if d < 10 then Char.ofNat (48 + d) else Char.ofNat (87 + d)

def hexChars (n : ℕ) : List Char :=
  if h : n < 16 then [hexDigitChar n]
  else hexChars (n / 16) ++ [hexDigitChar (n % 16)]
termination_by n
decreasing_by exact Nat.div_lt_self (by omega) (by omega)

def format02x (n : ℕ) : String :=
  if (hexChars n).length < 2 then String.mk ('0' :: hexChars n)
  else String.mk (hexChars n)

/- SyncHelpers._rgb2hex on the lookup-table path: the table components are
numpy uint8 integers, so the integer branch of the isinstance dispatch is
taken and each component is formatted with {:02x}. -/
def _rgb2hex (r g b : ℕ) : String :=
  "#" ++ format02x r ++ format02x g ++ format02x b

/- The lookup table of a scalar bar actor: GetTable() exposes the flat RGBA
byte buffer read by np.frombuffer, GetTableRange() the numeric range. -/
structure LookupTable where
  tableBytes : List ℕ
  tableRange : ℚ × ℚ

inductive ViewProp where
  | scalarBar (lut : LookupTable) (title : String)
  | other (kind : String)

structure LinearColorMapper where
  low : ℚ
  high : ℚ
  name : String
  palette : List String

/- reshape((-1, 4)) of the flat byte buffer: consecutive quadruples. -/
def chunk4 : List ℕ → List (ℕ × ℕ × ℕ × ℕ)
  | r :: g :: b :: a :: rest => (r, g, b, a) :: chunk4 rest
  | _ => []

/- SyncHelpers.get_color_mappers: one LinearColorMapper per scalar bar
view-prop, palette from the first three columns of the RGBA table rows,
low and high from GetTableRange, name from GetTitle. -/
def get_color_mappers (props : List ViewProp) : List LinearColorMapper :=
  props.filterMap fun vp =>
    match vp with
    | ViewProp.scalarBar lut title =>
        some { low := lut.tableRange.1, high := lut.tableRange.2, name := title,
               palette := (chunk4 lut.tableBytes).map
                 (fun q => _rgb2hex q.1 q.2.1 q.2.2.1) }
    | ViewProp.other _ => none

lemma chunk4_flatten (rows : List (ℕ × ℕ × ℕ × ℕ)) :
    chunk4 (rows.flatMap (fun q => [q.1, q.2.1, q.2.2.1, q.2.2.2])) = rows := by
  induction rows with
  | nil => rfl
  | cons q t ih =>
    obtain ⟨r, g, b, a⟩ := q
    simpa [chunk4] using ih

lemma hexChars_single {n : ℕ} (h : n < 16) : hexChars n = [hexDigitChar n] := by
  rw [hexChars]
  rw [dif_pos h]

lemma hexChars_two {n : ℕ} (h16 : 16 ≤ n) (h : n < 256) :
    hexChars n = [hexDigitChar (n / 16), hexDigitChar (n % 16)] := by
  rw [hexChars]
  rw [dif_neg (by omega)]
  rw [hexChars_single (by omega : n / 16 < 16)]
  rfl

lemma format02x_length {n : ℕ} (h : n < 256) : (format02x n).length = 2 := by
  unfold format02x
  rcases Nat.lt_or_ge n 16 with h16 | h16
  · rw [hexChars_single h16]
    rfl
  · rw [hexChars_two h16 h]
    rfl

lemma rgb2hex_length {r g b : ℕ} (hr : r < 256) (hg : g < 256) (hb : b < 256) :
    (_rgb2hex r g b).length = 7 := by
  unfold _rgb2hex
  rw [String.length_append, String.length_append, String.length_append,
    format02x_length hr, format02x_length hg, format02x_length hb]
  rfl

/-- C8: every scalar-bar view-prop contributes a color mapper whose palette
is the RGBA table flattened to one #rrggbb string per table row with the
alpha column dropped, and whose low and high are the numeric table range. -/
theorem get_color_mappers_spec (props : List ViewProp) (lut : LookupTable)
    (title : String) (rows : List (ℕ × ℕ × ℕ × ℕ))
    (hbytes : lut.tableBytes = rows.flatMap (fun q => [q.1, q.2.1, q.2.2.1, q.2.2.2]))
    (hmem : ViewProp.scalarBar lut title ∈ props)
    (hbyte : ∀ q ∈ rows, q.1 < 256 ∧ q.2.1 < 256 ∧ q.2.2.1 < 256) :
    ∃ cm ∈ get_color_mappers props,
      cm.low = lut.tableRange.1 ∧ cm.high = lut.tableRange.2 ∧ cm.name = title
      ∧ cm.palette = rows.map (fun q => _rgb2hex q.1 q.2.1 q.2.2.1)
      ∧ ∀ s ∈ cm.palette, s.length = 7 := by
  refine ⟨{ low := lut.tableRange.1, high := lut.tableRange.2, name := title,
            palette := (chunk4 lut.tableBytes).map
              (fun q => _rgb2hex q.1 q.2.1 q.2.2.1) }, ?_, rfl, rfl, rfl, ?_, ?_⟩
  · exact List.mem_filterMap.mpr ⟨ViewProp.scalarBar lut title, hmem, rfl⟩
  · rw [hbytes, chunk4_flatten]
  · intro s hs
    rw [hbytes, chunk4_flatten] at hs
    obtain ⟨q, hq, rfl⟩ := List.mem_map.mp hs
    obtain ⟨h1, h2, h3⟩ := hbyte q hq
    exact rgb2hex_length h1 h2 h3

theorem get_color_mappers_spec_witness :
    ∃ cm ∈ get_color_mappers
        [ViewProp.other "vtkActor",
         ViewProp.scalarBar ⟨[255, 0, 128, 255], (0, 10)⟩ "temperature"],
      cm.low = (⟨[255, 0, 128, 255], (0, 10)⟩ : LookupTable).tableRange.1
      ∧ cm.high = (⟨[255, 0, 128, 255], (0, 10)⟩ : LookupTable).tableRange.2
      ∧ cm.name = "temperature"
      ∧ cm.palette = [(255, 0, 128, 255)].map
          (fun q => _rgb2hex q.1 q.2.1 q.2.2.1)
      ∧ ∀ s ∈ cm.palette, s.length = 7 :=
  get_color_mappers_spec
    [ViewProp.other "vtkActor",
     ViewProp.scalarBar ⟨[255, 0, 128, 255], (0, 10)⟩ "temperature"]
    ⟨[255, 0, 128, 255], (0, 10)⟩ "temperature" [(255, 0, 128, 255)]
    (by rfl) (by simp) (by decide)
